import Mathlib

/-!
Verification of the Shishki_picking warehouse-picking client.

The source is vanilla JavaScript in two near-duplicate revisions:
`src/unnamed/part_000` (the more complete revision, treated as authoritative,
as the spec instructs) and `src/static/app.js` (an older revision, modelled
where it diverges).  Machine numbers are idealized as exact rationals `ℚ`;
the decimal-string view that `String(q)` exposes to `inferStep` is modelled
explicitly by `DecNum` (an integer part plus the list of fractional digits).
Stateful code is modelled by explicit state passing over `AppState`, and the
rendered order-detail line list by a `List El` of line elements carrying the
`data-*` attributes the source reads back from the DOM.
-/

namespace Shishki

/-- `EPS = 1e-9`, the source's global epsilon (`const EPS = 1e-9`). -/
def EPS : ℚ := 1 / 10 ^ 9

/-- `1e-6`, the completion / delta tolerance literal used in
`isLineDone`, `isOrderDone` and `computeDelta`. -/
def TOL : ℚ := 1 / 10 ^ 6

/-- An order line record as served by the backend and cached client-side
(fields used by the core logic; `qty_ordered || 0` defaults are folded into
the field being total). -/
structure Line where
  id : ℕ
  qty_ordered : ℚ
  qty_collected : ℚ
  sort_index : ℚ
  baseline_qty_ordered : Option ℚ
  is_added : Bool
  is_removed : Bool
deriving DecidableEq, Repr

/-- An order record (aggregate fields relevant to the core logic). -/
structure Order where
  id : ℕ
  total_qty : ℚ
  collected_qty : ℚ
  progress_pct : ℚ
deriving DecidableEq, Repr

/-- A `{order, lines}` pair: one board-cache entry, or the open order detail. -/
structure OrderWithLines where
  order : Order
  lines : List Line
deriving DecidableEq, Repr

/-- `isLineDone(line)` from the source: vacuously done when
`qty_ordered <= EPS`, else done when `qty_collected >= qty_ordered - 1e-6`. -/
def isLineDone (l : Line) : Bool :=
  if l.qty_ordered ≤ EPS then true
  else decide (l.qty_collected ≥ l.qty_ordered - TOL)

/-- `isOrderDone(order)` from the source: false when `total_qty <= EPS`,
else true when `collected_qty >= total_qty - 1e-6`. -/
def isOrderDone (o : Order) : Bool :=
  if o.total_qty ≤ EPS then false
  else decide (o.collected_qty ≥ o.total_qty - TOL)

/-- `computeDelta(line)` from the source: null without a baseline; with a
baseline, the whole `qty_ordered` for added lines, otherwise the difference
`qty_ordered - baseline`, nulled when its magnitude is below `1e-6`. -/
def computeDelta (l : Line) : Option ℚ :=
  match l.baseline_qty_ordered with
  | none => none
  | some base =>
    if l.is_added then some l.qty_ordered
    else if |base - l.qty_ordered| < TOL then none
    else some (l.qty_ordered - base)

/-- The decimal-string view of a nonnegative finite JS number, as produced by
`String(q)`: an integer part and the list of fractional digits (most
significant first).  `⟨1, [2, 5]⟩` is the string `"1.25"`. -/
structure DecNum where
  intPart : ℕ
  frac : List ℕ
deriving DecidableEq, Repr

/-- Value of a fractional digit list: `[2,5]` is `25 / 100`. -/
def digitsVal (ds : List ℕ) : ℚ :=
  ((ds.foldl (fun a d => 10 * a + d) 0 : ℕ) : ℚ) / (10 : ℚ) ^ ds.length

/-- Numeric value denoted by a `DecNum`. -/
def DecNum.val (n : DecNum) : ℚ := n.intPart + digitsVal n.frac

/-- `Math.round` for nonnegative arguments: round half toward `+∞`. -/
def jsRound (q : ℚ) : ℤ := ⌊q + 1 / 2⌋

/-- `frac.replace(/0+$/, '')`: strip trailing zero digits. -/
def stripTrailingZeros (ds : List ℕ) : List ℕ :=
  (ds.reverse.dropWhile (fun d => d == 0)).reverse

/-- `inferStep(qtyOrdered)` from `src/unnamed/part_000`: `1` for nonpositive
or integral-within-`1e-9` quantities; otherwise the fractional digits are
taken (trailing zeros stripped), the leading zeros are counted, and the step
is `10^-(idx+1)` where `idx` is that count — i.e. the place value of the
first nonzero fractional digit. -/
def inferStep (n : DecNum) : ℚ :=
  let q := n.val
  if q ≤ 0 then 1
  else if |q - (jsRound q : ℚ)| < EPS then 1
  else
    let frac := stripTrailingZeros n.frac
    if frac.isEmpty then 1
    else
      let idx := (frac.takeWhile (fun d => d == 0)).length
      if frac.length ≤ idx then 1
      else 1 / (10 : ℚ) ^ (idx + 1)

/-- `inferStep(qtyOrdered)` from the older revision `src/static/app.js`:
same guards, but the step is `10^-d` where `d` is the full count of
fractional digits of `String(q)` (which carries no trailing zeros). -/
def inferStepAlt (n : DecNum) : ℚ :=
  let q := n.val
  if q ≤ 0 then 1
  else if |q - (jsRound q : ℚ)| < EPS then 1
  else if n.frac.isEmpty then 1
  else 1 / (10 : ℚ) ^ n.frac.length

/-- `stepDecimals(step)`: the number of decimals of the step's string form.
The source counts the digits after `'.'` in `String(step)` (reading the
exponent for exponential notation); on the values `inferStep` actually
produces — `1` and negative powers of ten — that count is the least `k`
with `step * 10^k ≥ 1`, which is how it is computed here. -/
def stepDecimals (s : ℚ) : ℕ :=
  if h : 0 < s ∧ s < 1 then
    Nat.find (p := fun k => 1 ≤ s * 10 ^ k)
      (by
        obtain ⟨n, hn⟩ := pow_unbounded_of_one_lt (α := ℚ) (y := 10) s⁻¹ (by norm_num)
        refine ⟨n, ?_⟩
        have h2 := mul_lt_mul_of_pos_left hn h.1
        rw [mul_inv_cancel₀ (ne_of_gt h.1)] at h2
        exact h2.le)
  else 0

/-- `v.toFixed(d)` for `v ≥ 0`, as an exact rational: round to `d` decimals,
ties toward the larger value (ECMAScript `toFixed` picks the larger `n`). -/
def jsToFixed (v : ℚ) (d : ℕ) : ℚ := ((⌊v * 10 ^ d + 1 / 2⌋ : ℤ) : ℚ) / 10 ^ d

/-- `clampAndRound(value, max, step)` from the source: clamp to `[0, max]`,
round to the step's decimals, and normalize `-0` to `0` (on `ℚ` the final
`rounded === 0 ? 0 : rounded` branch is the identity). -/
def clampAndRound (value maxQ step : ℚ) : ℚ :=
  let v := max 0 (min value maxQ)
  let dec := stepDecimals step
  let rounded := jsToFixed v dec
  if rounded = 0 then 0 else rounded

/-- JS `Array.prototype.findIndex`: index of the first element satisfying
`p`, with `none` standing for the source's `-1`. -/
def jsFindIndex {α : Type} (p : α → Bool) : List α → Option ℕ
  | [] => none
  | a :: l => if p a then some 0 else (jsFindIndex p l).map (· + 1)

/-- In-place update of the element at index `i` (JS `arr[i] = f(arr[i])`). -/
def modifyAt {α : Type} : List α → ℕ → (α → α) → List α
  | [], _, _ => []
  | a :: l, 0, f => f a :: l
  | a :: l, n + 1, f => a :: modifyAt l n f

/-- Which of the three top-level views is showing. -/
inductive View where
  | login
  | board
  | detail
deriving DecidableEq, Repr

/-- The client's mutable session state (the source's global `state` object
plus the view shown and, to give timers observable meaning, the multiset of
live interval timers and a fresh-handle counter).  `pollTimer` is the
source's stored `setInterval` handle; `liveTimers` lists the handles of
intervals that have been created and not yet cleared. -/
structure AppState where
  config : Option ℕ
  orders : List OrderWithLines
  orderDetail : Option OrderWithLines
  activeOrderId : Option ℕ
  pollTimer : Option ℕ
  liveTimers : List ℕ
  nextTimer : ℕ
  view : View
deriving DecidableEq, Repr

/-- The authoritative `{order, line, order_completed_now}` payload returned
by the line-patch endpoint. -/
structure PatchData where
  order : Order
  line : Line
  order_completed_now : Bool
deriving DecidableEq, Repr

/-- The in-place line replacement both halves of `patchLine` perform on a
line array: overwrite the first line whose id is `data.line.id`, if any. -/
def patchLines (lines : List Line) (d : PatchData) : List Line :=
  match jsFindIndex (fun l => l.id == d.line.id) lines with
  | some i => lines.set i d.line
  | none => lines

/-- First half of `patchLine`'s merge (source lines 184–190): with an open
detail, replace its order with `data.order` and — when a line with
`data.line.id` is found — overwrite that line in place. -/
def patchDetailStep (st : AppState) (d : PatchData) : AppState :=
  match st.orderDetail with
  | none => st
  | some od =>
    { st with orderDetail := some { order := d.order, lines := patchLines od.lines d } }

/-- Second half of `patchLine`'s merge (source lines 192–199): in the first
board-cache entry whose order id matches `data.order.id`, replace the order
and — when present — the matching preview line. -/
def patchBoardStep (st : AppState) (d : PatchData) : AppState :=
  match jsFindIndex (fun w => w.order.id == d.order.id) st.orders with
  | none => st
  | some wi =>
    { st with
      orders := modifyAt st.orders wi (fun w =>
        { order := d.order, lines := patchLines w.lines d }) }

/-- The state merge performed by `patchLine` (source lines 183–199): the
detail merge, then the board-cache merge. -/
def applyLinePatch (st : AppState) (d : PatchData) : AppState :=
  patchBoardStep (patchDetailStep st d) d

/-- Board half of `completeOrder`'s merge: replace the order of the first
board-cache entry whose id matches. -/
def completeBoardStep (st : AppState) (o : Order) : AppState :=
  match jsFindIndex (fun w => w.order.id == o.id) st.orders with
  | none => st
  | some wi =>
    { st with orders := modifyAt st.orders wi (fun w => { w with order := o }) }

/-- The state merge performed by `completeOrder` on a successful response
(source lines 222–246): with an open detail, replace its order and the
matching board-cache entry's order; with no open detail the function
returns before doing anything. -/
def applyOrderPatch (st : AppState) (o : Order) : AppState :=
  match st.orderDetail with
  | none => st
  | some od =>
    completeBoardStep { st with orderDetail := some { od with order := o } } o

/-- `stopPolling()`: clear the stored interval (removing it from the live
set) and null the handle. -/
def stopPollingS (st : AppState) : AppState :=
  match st.pollTimer with
  | none => st
  | some t => { st with pollTimer := none, liveTimers := st.liveTimers.erase t }

/-- `startPolling()`: first `stopPolling()`, then create one fresh interval
and store its handle. -/
def startPollingS (st : AppState) : AppState :=
  let st1 := stopPollingS st
  { st1 with
    pollTimer := some st1.nextTimer
    liveTimers := st1.liveTimers ++ [st1.nextTimer]
    nextTimer := st1.nextTimer + 1 }

/-- `logout()`: clear config, board cache, order detail and active order id,
stop polling, and show the login view. -/
def logoutS (st : AppState) : AppState :=
  let st1 :=
    { st with
      config := none
      orders := []
      orderDetail := none
      activeOrderId := none }
  let st2 := stopPollingS st1
  { st2 with view := View.login }

/-- `apiFetch`'s status handling: a 401 response runs `logout()` and then
throws `Unauthorized`; any other status is returned to the caller. -/
def apiFetchS (st : AppState) (status : ℕ) : AppState × Except Unit ℕ :=
  if status = 401 then (logoutS st, Except.error ()) else (st, Except.ok status)

/-- JS truthiness of the nullable `state.activeOrderId` (ids modelled as
naturals): `null` and `0` are falsy. -/
def jsTruthyId : Option ℕ → Bool
  | none => false
  | some n => !(n == 0)

/-- One tick of the poll interval: `if (!state.activeOrderId) await
loadOrders()` — the board cache is replaced by the fetched list only when
the active order id is falsy; otherwise the tick does nothing. -/
def pollTickS (st : AppState) (fetched : List OrderWithLines) : AppState :=
  if jsTruthyId st.activeOrderId then st else { st with orders := fetched }

/-- The externally triggered events of the sync controller, each carrying
the authoritative server payload its handler receives. -/
inductive Ev where
  | boot (cfg : ℕ) (fetched : List OrderWithLines)
  | openOrd (oid : ℕ) (detail : OrderWithLines)
  | closeOrd
  | pollTick (fetched : List OrderWithLines)
  | refresh (fetched : List OrderWithLines)
  | linePatch (d : PatchData)
  | orderPatch (o : Order)
  | unauthorized
  | logoutClick

/-- The controller's step function, assembled from the source handlers:
`bootApp` (config + board load + `startPolling`), `openOrder`
(`stopPolling` first, then detail load), `closeOrderView` (clear the active
order and `startPolling`), the poll tick, the refresh reload, the two state
merges, and `logout` for both the button and a 401. -/
def stepE (st : AppState) : Ev → AppState
  | Ev.boot cfg fetched =>
    startPollingS { st with config := some cfg, orders := fetched, view := View.board }
  | Ev.openOrd oid detail =>
    let st1 := stopPollingS st
    { st1 with orderDetail := some detail, activeOrderId := some oid, view := View.detail }
  | Ev.closeOrd =>
    startPollingS { st with activeOrderId := none, orderDetail := none, view := View.board }
  | Ev.pollTick fetched => pollTickS st fetched
  | Ev.refresh fetched => { st with orders := fetched }
  | Ev.linePatch d => applyLinePatch st d
  | Ev.orderPatch o => applyOrderPatch st o
  | Ev.unauthorized => logoutS st
  | Ev.logoutClick => logoutS st

/-- The state the script starts in: `logout()` runs at load time. -/
def initState : AppState :=
  { config := none
    orders := []
    orderDetail := none
    activeOrderId := none
    pollTimer := none
    liveTimers := []
    nextTimer := 0
    view := View.login }

/-- States the controller can actually be in. -/
inductive ReachableS : AppState → Prop where
  | init : ReachableS initState
  | next {st : AppState} (h : ReachableS st) (e : Ev) : ReachableS (stepE st e)

/-- The live intervals are exactly the stored poll handle. -/
def timersInv (st : AppState) : Prop :=
  st.liveTimers = (match st.pollTimer with | none => [] | some t => [t])

/-- Order Detail and the board cache agree on every order's aggregates. -/
def detailBoardAgree (st : AppState) : Prop :=
  ∀ od, st.orderDetail = some od →
    ∀ w ∈ st.orders, w.order.id = od.order.id → w.order = od.order

/-- A line's lifecycle bucket, as stored in `data-group`. -/
inductive Group where
  | incomplete
  | complete
  | removed
deriving DecidableEq, Repr

/-- A rendered line element of the order-detail list, carrying the
attributes the source reads back from the DOM (`data-line-id`,
`data-sort-index`, `data-done`, `data-group`). -/
structure El where
  id : ℕ
  sortIndex : ℚ
  done : Bool
  group : Group
deriving DecidableEq, Repr

/-- `container.insertBefore` target position: element inserted at index `i`. -/
def insertAt {α : Type} (l : List α) (i : ℕ) (a : α) : List α :=
  l.take i ++ a :: l.drop i

/-- Core of `moveLineToIncompletePosition` once the moved element has been
detached: insert before the first incomplete element with a strictly larger
sort index, else before the first complete element, else before the first
removed element, else append. -/
def insertByGroupPos (rest : List El) (el : El) : List El :=
  match jsFindIndex (fun x => decide (x.group = Group.incomplete) &&
      decide (el.sortIndex < x.sortIndex)) rest with
  | some i => insertAt rest i el
  | none =>
    match jsFindIndex (fun x => decide (x.group = Group.complete)) rest with
    | some i => insertAt rest i el
    | none =>
      match jsFindIndex (fun x => decide (x.group = Group.removed)) rest with
      | some i => insertAt rest i el
      | none => rest ++ [el]

/-- `moveLineToIncompletePosition(lineEl)`: `insertBefore` moves the node,
so the element is detached from its old position and reinserted by the rule
above (candidate lists exclude the moved element itself). -/
def moveLineToIncompletePosition (L : List El) (el : El) : List El :=
  insertByGroupPos (L.filter (fun x => x.id != el.id)) el

/-- `moveLineToCompleteEnd(lineEl)`: move before the first removed element,
or to the end of the list. -/
def moveLineToCompleteEnd (L : List El) (el : El) : List El :=
  let rest := L.filter (fun x => x.id != el.id)
  match jsFindIndex (fun x => decide (x.group = Group.removed)) rest with
  | some i => insertAt rest i el
  | none => rest ++ [el]

/-- `moveLineToGroupEnd(lineEl, group)`: append for `removed`, end of the
complete group for `complete`, sort-position insert for `incomplete`. -/
def moveLineToGroupEnd (L : List El) (el : El) (g : Group) : List El :=
  if g = Group.removed then (L.filter (fun x => x.id != el.id)) ++ [el]
  else if g = Group.complete then moveLineToCompleteEnd L el
  else moveLineToIncompletePosition L el

/-- The list-reordering part of `updateLineUI(line)` (source lines
675–724): find the rendered element by line id, refresh its `done`,
`sort-index` and `group` attributes from the updated line, then relocate it
— to the complete group's end when it just became done, to its sort
position in the incomplete group when it just stopped being done, to its
new group's end on any other group change, else leave it in place. -/
def updateLineUI (L : List El) (line : Line) : List El :=
  match L.find? (fun x => x.id == line.id) with
  | none => L
  | some el =>
    let wasDone := el.done
    let nowDone := isLineDone line
    let nextGroup :=
      if line.is_removed then Group.removed
      else if nowDone then Group.complete
      else Group.incomplete
    let el' : El :=
      { id := el.id, sortIndex := line.sort_index, done := nowDone, group := nextGroup }
    let L' := L.map (fun x => if x.id == line.id then el' else x)
    if !wasDone && nowDone then moveLineToCompleteEnd L' el'
    else if wasDone && !nowDone then moveLineToIncompletePosition L' el'
    else if el.group ≠ nextGroup then moveLineToGroupEnd L' el' nextGroup
    else L'

/-! ### Helper lemmas -/

theorem dropWhile_head_false {α : Type} {p : α → Bool} :
    ∀ {l : List α} {a : α} {t : List α}, l.dropWhile p = a :: t → p a = false := by
  intro l
  induction l with
  | nil => intro a t h; simp [List.dropWhile] at h
  | cons x xs ih =>
    intro a t h
    by_cases hx : p x
    · rw [List.dropWhile_cons_of_pos hx] at h; exact ih h
    · rw [List.dropWhile_cons_of_neg hx] at h
      cases h; simpa using hx

theorem takeWhile_length_lt {α : Type} {p : α → Bool} :
    ∀ {l : List α}, (∃ x ∈ l, p x = false) → (l.takeWhile p).length < l.length := by
  intro l
  induction l with
  | nil => rintro ⟨x, hx, -⟩; simp at hx
  | cons y ys ih =>
    rintro ⟨x, hx, hpx⟩
    by_cases hy : p y
    · rw [List.takeWhile_cons_of_pos hy]
      have : x ∈ ys := by
        rcases List.mem_cons.1 hx with rfl | h
        · exact absurd hy (by simp [hpx])
        · exact h
      simpa using ih ⟨x, this, hpx⟩
    · rw [List.takeWhile_cons_of_neg hy]; simp

theorem stripTrailingZeros_last_ne {ds : List ℕ} (h : stripTrailingZeros ds ≠ []) :
    ∃ x ∈ stripTrailingZeros ds, (x == 0) = false := by
  unfold stripTrailingZeros at *
  rcases hE : ds.reverse.dropWhile (fun d => d == 0) with _ | ⟨a, t⟩
  · rw [hE] at h; simp at h
  · refine ⟨a, ?_, dropWhile_head_false (p := fun d => d == 0) hE⟩
    simp

end Shishki

namespace Shishki

/-! ### Claim theorems -/

/-- C6: for every order record, `isOrderDone` returns false when
`total_qty ≤ 1e-9` regardless of `collected_qty`, and otherwise returns
true exactly when `collected_qty ≥ total_qty - 1e-6`. -/
theorem isOrderDone_characterization (o : Order) :
    isOrderDone o = true ↔ EPS < o.total_qty ∧ o.total_qty - TOL ≤ o.collected_qty := by
  unfold isOrderDone
  split_ifs with h
  · simp [not_lt.mpr h]
  · simp only [decide_eq_true_eq, ge_iff_le]
    exact ⟨fun hc => ⟨not_le.mp h, hc⟩, fun hc => hc.2⟩

/-- C1 counterexample: for a line that is added but carries no
`baseline_qty_ordered`, `computeDelta` returns null (the baseline check
precedes the `is_added` check), not `qty_ordered`; the claim's example
`computeDelta({is_added: true, qty_ordered: 4}) = 4` is therefore wrong. -/
theorem computeDelta_added_without_baseline_cex :
    computeDelta
        { id := 1, qty_ordered := 4, qty_collected := 0, sort_index := 0,
          baseline_qty_ordered := none, is_added := true, is_removed := false } = none ∧
      (none : Option ℚ) ≠ some 4 := by
  exact ⟨rfl, by simp⟩

/-- C1 (amended): `computeDelta` returns null when no baseline is present —
even for added lines; when a baseline is present it returns `qty_ordered`
for added lines, and otherwise `qty_ordered - baseline`, nulled when that
difference's magnitude is below `1e-6`.  The claim's other examples hold:
`computeDelta({qty_ordered: 5, baseline_qty_ordered: 5})` is null and
`computeDelta({qty_ordered: 7, baseline_qty_ordered: 5})` is `2`. -/
theorem computeDelta_characterization (l : Line) :
    (l.baseline_qty_ordered = none → computeDelta l = none) ∧
    (∀ b, l.baseline_qty_ordered = some b → l.is_added = true →
      computeDelta l = some l.qty_ordered) ∧
    (∀ b, l.baseline_qty_ordered = some b → l.is_added = false →
      |b - l.qty_ordered| < TOL → computeDelta l = none) ∧
    (∀ b, l.baseline_qty_ordered = some b → l.is_added = false →
      TOL ≤ |b - l.qty_ordered| → computeDelta l = some (l.qty_ordered - b)) := by
  refine ⟨?_, ?_, ?_, ?_⟩
  · intro h; unfold computeDelta; rw [h]
  · intro b hb ha; unfold computeDelta; rw [hb]; simp [ha]
  · intro b hb ha hlt; unfold computeDelta; rw [hb]; simp [ha, hlt]
  · intro b hb ha hge; unfold computeDelta; rw [hb]; simp [ha, not_lt.mpr hge]

/-- Witness for C1's amended theorem at the claim's own concrete examples. -/
theorem computeDelta_characterization_witness :
    computeDelta
        { id := 1, qty_ordered := 5, qty_collected := 0, sort_index := 0,
          baseline_qty_ordered := some 5, is_added := false, is_removed := false } = none ∧
      computeDelta
        { id := 2, qty_ordered := 7, qty_collected := 0, sort_index := 0,
          baseline_qty_ordered := some 5, is_added := false, is_removed := false } = some 2 := by
  constructor
  · exact (computeDelta_characterization
      { id := 1, qty_ordered := 5, qty_collected := 0, sort_index := 0,
        baseline_qty_ordered := some 5, is_added := false,
        is_removed := false }).2.2.1 5 rfl rfl (by norm_num [TOL])
  · have h := (computeDelta_characterization
      { id := 2, qty_ordered := 7, qty_collected := 0, sort_index := 0,
        baseline_qty_ordered := some 5, is_added := false,
        is_removed := false }).2.2.2 5 rfl rfl (by norm_num [TOL])
    rw [h]; norm_num

/-- C2 counterexample: in the authoritative revision (`src/unnamed/part_000`)
`inferStep` of `1.25` is `0.1` — the step is set by the place of the first
nonzero fractional digit, not by the count of fractional digits — so the
claimed value `inferStep(1.25) = 0.01` is wrong for it. -/
theorem inferStep_quarter_cex :
    inferStep ⟨1, [2, 5]⟩ = 1 / 10 ∧ (1 / 10 : ℚ) ≠ 1 / 100 := by
  constructor
  · norm_num [inferStep, DecNum.val, digitsVal, jsRound, EPS, stripTrailingZeros,
      abs_of_nonneg, abs_of_nonpos]
  · norm_num

/-- C2 (amended): `inferStep` returns `1` for nonpositive quantities and for
quantities integral within `1e-9` (also when the fractional digits are all
zeros); otherwise, in the authoritative revision, it returns `10^-(z+1)`
where `z` counts the leading zeros of the fractional digits (trailing zeros
stripped) — the place of the first significant fractional digit — so
`inferStep(2.5) = 0.1` and `inferStep(3) = 1` as claimed, but
`inferStep(1.25) = 0.1`.  The older `app.js` revision returns `10^-d` with
`d` the full fractional-digit count, which is what the claim stated. -/
theorem inferStep_characterization (n : DecNum) :
    (n.val ≤ 0 → inferStep n = 1) ∧
    (|n.val - (jsRound n.val : ℚ)| < EPS → inferStep n = 1) ∧
    (0 < n.val → ¬|n.val - (jsRound n.val : ℚ)| < EPS → stripTrailingZeros n.frac = [] →
      inferStep n = 1) ∧
    (0 < n.val → ¬|n.val - (jsRound n.val : ℚ)| < EPS → stripTrailingZeros n.frac ≠ [] →
      inferStep n =
        1 / (10 : ℚ) ^
          (((stripTrailingZeros n.frac).takeWhile (fun d => d == 0)).length + 1)) ∧
    (0 < n.val → ¬|n.val - (jsRound n.val : ℚ)| < EPS → n.frac ≠ [] →
      inferStepAlt n = 1 / (10 : ℚ) ^ n.frac.length) := by
  refine ⟨?_, ?_, ?_, ?_, ?_⟩
  · intro h; simp only [inferStep]; rw [if_pos h]
  · intro h; simp only [inferStep]
    rcases le_or_lt n.val 0 with h0 | h0
    · rw [if_pos h0]
    · rw [if_neg (not_le.mpr h0), if_pos h]
  · intro hpos hni hstrip; simp only [inferStep]
    rw [if_neg (not_le.mpr hpos), if_neg hni]
    simp [hstrip]
  · intro hpos hni hstrip; simp only [inferStep]
    rw [if_neg (not_le.mpr hpos), if_neg hni]
    have hlt := takeWhile_length_lt (p := fun d => d == 0) (stripTrailingZeros_last_ne hstrip)
    simp only [List.isEmpty_iff]
    rw [if_neg hstrip, if_neg (not_le.mpr hlt)]
  · intro hpos hni hfrac; simp only [inferStepAlt]
    rw [if_neg (not_le.mpr hpos), if_neg hni]
    simp [hfrac]

/-- Witness for C2's amended theorem at the claim's example `2.5`
(step `0.1`) and at the counterexample input `1.25` (step also `0.1`). -/
theorem inferStep_characterization_witness :
    inferStep ⟨2, [5]⟩ = 1 / (10 : ℚ) ^ (0 + 1) ∧
      inferStep ⟨1, [2, 5]⟩ = 1 / (10 : ℚ) ^ (0 + 1) := by
  constructor
  · have h := (inferStep_characterization ⟨2, [5]⟩).2.2.2.1
      (by norm_num [DecNum.val, digitsVal])
      (by norm_num [DecNum.val, digitsVal, jsRound, EPS, abs_of_nonneg, abs_of_nonpos])
      (by simp [stripTrailingZeros])
    simpa [stripTrailingZeros] using h
  · have h := (inferStep_characterization ⟨1, [2, 5]⟩).2.2.2.1
      (by norm_num [DecNum.val, digitsVal])
      (by norm_num [DecNum.val, digitsVal, jsRound, EPS, abs_of_nonneg, abs_of_nonpos])
      (by simp [stripTrailingZeros])
    simpa [stripTrailingZeros] using h

end Shishki

namespace Shishki

/-- C3: `clampAndRound` is idempotent — re-applying it with the same bound
and step returns its own output unchanged — and its result is never
negative (so never `-0`; the source normalizes `-0` to `0` and the `ℚ`
model has a single zero). -/
theorem clampAndRound_idempotent (value maxQ step : ℚ) :
    clampAndRound (clampAndRound value maxQ step) maxQ step
        = clampAndRound value maxQ step ∧
      0 ≤ clampAndRound value maxQ step := by
  have hpow : (0 : ℚ) < 10 ^ stepDecimals step := by positivity
  have hfix : ∀ z : ℤ, 0 ≤ z → jsToFixed ((z : ℚ) / 10 ^ stepDecimals step)
      (stepDecimals step) = (z : ℚ) / 10 ^ stepDecimals step := by
    intro z hz
    unfold jsToFixed
    rw [div_mul_cancel₀ _ (ne_of_gt hpow), add_comm, Int.floor_add_int]
    norm_num
  have hcr : ∀ w : ℚ, clampAndRound w maxQ step
      = jsToFixed (max 0 (min w maxQ)) (stepDecimals step) := by
    intro w
    simp only [clampAndRound]
    split_ifs with h
    · exact h.symm
    · rfl
  -- name the rounded integer behind the first application
  set d := stepDecimals step with hd
  set v1 : ℚ := max 0 (min value maxQ) with hv1
  have hv1nn : (0 : ℚ) ≤ v1 := le_max_left 0 _
  set k : ℤ := ⌊v1 * 10 ^ d + 1 / 2⌋ with hk
  have hknn : (0 : ℤ) ≤ k := by
    rw [hk]
    refine Int.le_floor.mpr ?_
    push_cast
    nlinarith [mul_nonneg hv1nn hpow.le]
  have hr1 : clampAndRound value maxQ step = (k : ℚ) / 10 ^ d := hcr value
  have hrnn : (0 : ℚ) ≤ (k : ℚ) / 10 ^ d :=
    div_nonneg (by exact_mod_cast hknn) hpow.le
  refine ⟨?_, by rw [hr1]; exact hrnn⟩
  rw [hr1, hcr]
  by_cases hm : maxQ < 0
  · -- the clamp range is empty: everything collapses to 0
    have hv10 : v1 = 0 := by
      rw [hv1]
      exact max_eq_left ((min_le_right value maxQ).trans hm.le)
    have hk0 : k = 0 := by
      rw [hk, hv10]
      norm_num
    have hmin : min ((k : ℚ) / 10 ^ d) maxQ = maxQ := by
      rw [hk0]
      simp only [Int.cast_zero, zero_div]
      exact min_eq_right hm.le
    rw [hmin, max_eq_left hm.le, hk0]
    unfold jsToFixed
    norm_num
  · push_neg at hm
    rcases le_or_lt ((k : ℚ) / 10 ^ d) maxQ with hle | hgt
    · rw [min_eq_left hle, max_eq_right hrnn]
      exact hfix k hknn
    · -- rounding pushed past the bound: re-rounding the bound gives the
      -- same integer back
      rw [min_eq_right hgt.le, max_eq_right hm]
      have hv1le : v1 ≤ maxQ := by
        rw [hv1]
        exact max_le hm (min_le_right value maxQ)
      have hfl : (k : ℚ) ≤ v1 * 10 ^ d + 1 / 2 := by rw [hk]; exact Int.floor_le _
      have hub : maxQ * 10 ^ d < (k : ℚ) := (lt_div_iff₀ hpow).mp hgt
      have : ⌊maxQ * 10 ^ d + 1 / 2⌋ = k := by
        rw [Int.floor_eq_iff]
        constructor
        · have := mul_le_mul_of_nonneg_right hv1le hpow.le
          linarith
        · linarith
      unfold jsToFixed
      rw [this]

end Shishki

namespace Shishki

theorem jsFindIndex_eq_none {α : Type} {p : α → Bool} :
    ∀ {l : List α}, jsFindIndex p l = none → ∀ a ∈ l, p a = false := by
  intro l
  induction l with
  | nil => intro _ a ha; simp at ha
  | cons x xs ih =>
    intro h a ha
    unfold jsFindIndex at h
    by_cases hx : p x
    · simp [hx] at h
    · rcases List.mem_cons.1 ha with rfl | hmem
      · exact Bool.of_not_eq_true hx
      · rw [if_neg hx] at h
        exact ih (by simpa using h) a hmem

theorem jsFindIndex_eq_some {α : Type} {p : α → Bool} :
    ∀ {l : List α} {i : ℕ}, jsFindIndex p l = some i →
      ∃ a, l.get? i = some a ∧ p a = true := by
  intro l
  induction l with
  | nil => intro i h; simp [jsFindIndex] at h
  | cons x xs ih =>
    intro i h
    unfold jsFindIndex at h
    by_cases hx : p x
    · rw [if_pos hx] at h
      cases h
      exact ⟨x, rfl, hx⟩
    · rw [if_neg hx] at h
      rcases hr : jsFindIndex p xs with _ | j
      · rw [hr] at h; simp at h
      · rw [hr] at h
        simp only [Option.map_some'] at h
        cases h
        obtain ⟨a, ha, hpa⟩ := ih hr
        exact ⟨a, ha, hpa⟩

theorem modifyAt_length {α : Type} (f : α → α) :
    ∀ (l : List α) (i : ℕ), (modifyAt l i f).length = l.length := by
  intro l
  induction l with
  | nil => intro i; rfl
  | cons a t ih =>
    intro i
    cases i with
    | zero => rfl
    | succ j => simpa [modifyAt] using ih j

theorem modifyAt_get?_ne {α : Type} (f : α → α) :
    ∀ (l : List α) (i j : ℕ), i ≠ j → (modifyAt l i f).get? j = l.get? j := by
  intro l
  induction l with
  | nil => intro i j _; rfl
  | cons a t ih =>
    intro i j hij
    cases i with
    | zero =>
      cases j with
      | zero => exact absurd rfl hij
      | succ j' => rfl
    | succ i' =>
      cases j with
      | zero => rfl
      | succ j' => exact ih i' j' (fun h => hij (by rw [h]))

theorem modifyAt_get?_eq {α : Type} (f : α → α) :
    ∀ (l : List α) (i : ℕ), (modifyAt l i f).get? i = (l.get? i).map f := by
  intro l
  induction l with
  | nil => intro i; rfl
  | cons a t ih =>
    intro i
    cases i with
    | zero => rfl
    | succ j => exact ih j

theorem nodup_map_get?_ne {α β : Type} {f : α → β} :
    ∀ {l : List α} {i j : ℕ} {x y : α}, (l.map f).Nodup →
      l.get? i = some x → l.get? j = some y → i ≠ j → f x ≠ f y := by
  intro l
  induction l with
  | nil => intro i j x y _ hi; simp at hi
  | cons a t ih =>
    intro i j x y hnd hi hj hij
    rw [List.map_cons, List.nodup_cons] at hnd
    match i, j with
    | 0, 0 => exact absurd rfl hij
    | 0, j' + 1 =>
      cases hi
      intro hfe
      exact hnd.1 (hfe ▸ List.mem_map_of_mem f (List.get?_mem hj))
    | i' + 1, 0 =>
      cases hj
      intro hfe
      exact hnd.1 (hfe ▸ List.mem_map_of_mem f (List.get?_mem hi))
    | i' + 1, j' + 1 =>
      exact ih hnd.2 hi hj (fun h => hij (by rw [h]))

/-- The patched line list of a `{order, lines}` record: the matched line is
overwritten, everything else is untouched. -/
theorem patchLines_length (lines : List Line) (d : PatchData) :
    (patchLines lines d).length = lines.length := by
  unfold patchLines
  rcases hf : jsFindIndex (fun l => l.id == d.line.id) lines with _ | i
  · rw [hf]
  · rw [hf]; simp

theorem patchLines_get?_ne (lines : List Line) (d : PatchData) (j : ℕ)
    (hj : jsFindIndex (fun l => l.id == d.line.id) lines ≠ some j) :
    (patchLines lines d).get? j = lines.get? j := by
  unfold patchLines
  rcases hf : jsFindIndex (fun l => l.id == d.line.id) lines with _ | i
  · rw [hf]
  · rw [hf]
    exact List.get?_set_ne d.line lines (fun h => hj (by rw [hf, h]))

theorem patchLines_get?_hit (lines : List Line) (d : PatchData) (j : ℕ)
    (hj : jsFindIndex (fun l => l.id == d.line.id) lines = some j) :
    (patchLines lines d).get? j = some d.line := by
  unfold patchLines
  rw [hj]
  obtain ⟨a, ha, -⟩ := jsFindIndex_eq_some hj
  obtain ⟨hlt, -⟩ := List.get?_eq_some.mp ha
  exact List.get?_set_eq_of_lt d.line hlt

theorem patchBoardStep_of_none (st : AppState) (d : PatchData)
    (hf : jsFindIndex (fun w => w.order.id == d.order.id) st.orders = none) :
    patchBoardStep st d = st := by
  unfold patchBoardStep
  rw [hf]

theorem patchBoardStep_orders_of_some (st : AppState) (d : PatchData) (wi : ℕ)
    (hf : jsFindIndex (fun w => w.order.id == d.order.id) st.orders = some wi) :
    (patchBoardStep st d).orders =
      modifyAt st.orders wi (fun w =>
        { order := d.order, lines := patchLines w.lines d }) := by
  unfold patchBoardStep
  rw [hf]

theorem patchBoardStep_orderDetail (st : AppState) (d : PatchData) :
    (patchBoardStep st d).orderDetail = st.orderDetail := by
  unfold patchBoardStep
  rcases hf : jsFindIndex (fun w => w.order.id == d.order.id) st.orders with _ | wi <;>
    rw [hf]

theorem patchDetailStep_orders (st : AppState) (d : PatchData) :
    (patchDetailStep st d).orders = st.orders := by
  unfold patchDetailStep
  rcases hod : st.orderDetail with _ | od <;> rfl

end Shishki

namespace Shishki

/-- C4: applying a line-patch response replaces only the order aggregates
and the matched line in Order Detail and in the matching board-cache entry;
every other detail line, every other preview line of that entry, and every
other board-cache entry keep their previous value (compared position by
position). -/
theorem patchLine_frame (st : AppState) (d : PatchData) :
    (st.orderDetail = none → (applyLinePatch st d).orderDetail = none) ∧
    (∀ od, st.orderDetail = some od →
      ∃ od', (applyLinePatch st d).orderDetail = some od' ∧
        od'.order = d.order ∧
        od'.lines.length = od.lines.length ∧
        (∀ j, jsFindIndex (fun l => l.id == d.line.id) od.lines ≠ some j →
          od'.lines.get? j = od.lines.get? j) ∧
        (∀ j, jsFindIndex (fun l => l.id == d.line.id) od.lines = some j →
          od'.lines.get? j = some d.line)) ∧
    ((applyLinePatch st d).orders.length = st.orders.length) ∧
    (∀ j, jsFindIndex (fun w => w.order.id == d.order.id) st.orders ≠ some j →
      (applyLinePatch st d).orders.get? j = st.orders.get? j) ∧
    (∀ wi w, jsFindIndex (fun w => w.order.id == d.order.id) st.orders = some wi →
      st.orders.get? wi = some w →
      ∃ w', (applyLinePatch st d).orders.get? wi = some w' ∧
        w'.order = d.order ∧
        w'.lines.length = w.lines.length ∧
        (∀ j, jsFindIndex (fun l => l.id == d.line.id) w.lines ≠ some j →
          w'.lines.get? j = w.lines.get? j) ∧
        (∀ j, jsFindIndex (fun l => l.id == d.line.id) w.lines = some j →
          w'.lines.get? j = some d.line)) := by
  have hAL : applyLinePatch st d = patchBoardStep (patchDetailStep st d) d := rfl
  have hdetO := patchDetailStep_orders st d
  have hf0 : jsFindIndex (fun w => w.order.id == d.order.id) (patchDetailStep st d).orders
      = jsFindIndex (fun w => w.order.id == d.order.id) st.orders := by rw [hdetO]
  refine ⟨?_, ?_, ?_, ?_, ?_⟩
  · intro h
    rw [hAL, patchBoardStep_orderDetail]
    unfold patchDetailStep
    rw [h]
    exact h
  · intro od hod
    rw [hAL, patchBoardStep_orderDetail]
    unfold patchDetailStep
    rw [hod]
    exact ⟨_, rfl, rfl, patchLines_length od.lines d,
      patchLines_get?_ne od.lines d, patchLines_get?_hit od.lines d⟩
  · rw [hAL]
    rcases hf : jsFindIndex (fun w => w.order.id == d.order.id)
        (patchDetailStep st d).orders with _ | wi
    · rw [patchBoardStep_of_none _ _ hf, hdetO]
    · rw [patchBoardStep_orders_of_some _ _ _ hf, modifyAt_length, hdetO]
  · intro j hj
    rw [hAL]
    rcases hf : jsFindIndex (fun w => w.order.id == d.order.id)
        (patchDetailStep st d).orders with _ | wi
    · rw [patchBoardStep_of_none _ _ hf, hdetO]
    · rw [patchBoardStep_orders_of_some _ _ _ hf, hdetO]
      refine modifyAt_get?_ne _ st.orders wi j (fun h => hj ?_)
      rw [← h, ← hf0, hf]
  · intro wi w hf hw
    rw [hAL]
    have hf' : jsFindIndex (fun w => w.order.id == d.order.id)
        (patchDetailStep st d).orders = some wi := by rw [hf0]; exact hf
    rw [patchBoardStep_orders_of_some _ _ _ hf', hdetO, modifyAt_get?_eq, hw]
    exact ⟨_, rfl, rfl, patchLines_length w.lines d,
      patchLines_get?_ne w.lines d, patchLines_get?_hit w.lines d⟩

end Shishki

namespace Shishki

theorem completeBoardStep_of_none (st : AppState) (o : Order)
    (hf : jsFindIndex (fun w => w.order.id == o.id) st.orders = none) :
    completeBoardStep st o = st := by
  unfold completeBoardStep
  rw [hf]

theorem completeBoardStep_orders_of_some (st : AppState) (o : Order) (wi : ℕ)
    (hf : jsFindIndex (fun w => w.order.id == o.id) st.orders = some wi) :
    (completeBoardStep st o).orders =
      modifyAt st.orders wi (fun w => { w with order := o }) := by
  unfold completeBoardStep
  rw [hf]

theorem completeBoardStep_orderDetail (st : AppState) (o : Order) :
    (completeBoardStep st o).orderDetail = st.orderDetail := by
  unfold completeBoardStep
  rcases hf : jsFindIndex (fun w => w.order.id == o.id) st.orders with _ | wi <;> rw [hf]

/-- If no board entry matches the order id, none of them carries it. -/
theorem board_no_match {orders : List OrderWithLines} {o : Order}
    (hf : jsFindIndex (fun w => w.order.id == o.id) orders = none) :
    ∀ w ∈ orders, w.order.id ≠ o.id := by
  intro w hw
  have h := jsFindIndex_eq_none hf w hw
  simpa using h

/-- After overwriting the matched entry with an update that carries order
`o`, every entry whose id is `o.id` holds exactly `o` (board ids distinct). -/
theorem board_match_agree {orders : List OrderWithLines} {o : Order}
    {f : OrderWithLines → OrderWithLines} {wi : ℕ}
    (hND : (orders.map (fun w => w.order.id)).Nodup)
    (hf : jsFindIndex (fun w => w.order.id == o.id) orders = some wi)
    (hford : ∀ w, (f w).order = o) :
    ∀ w ∈ modifyAt orders wi f, w.order.id = o.id → w.order = o := by
  intro w hw hid
  obtain ⟨j, hj⟩ := List.mem_iff_get?.mp hw
  by_cases hji : j = wi
  · subst hji
    rw [modifyAt_get?_eq] at hj
    rcases hg : orders.get? j with _ | w0
    · rw [hg] at hj; simp at hj
    · rw [hg] at hj
      simp only [Option.map_some'] at hj
      cases hj
      exact hford w0
  · have hj' : orders.get? j = some w := by
      rw [← modifyAt_get?_ne f orders wi j (fun h => hji h.symm)]
      exact hj
    obtain ⟨w0, hw0, hp⟩ := jsFindIndex_eq_some hf
    have hne : w.order.id ≠ w0.order.id :=
      nodup_map_get?_ne (f := fun w => w.order.id) hND hj' hw0 hji
    have hw0id : w0.order.id = o.id := by simpa using hp
    exact absurd (hid.trans hw0id.symm) hne

end Shishki

namespace Shishki

/-- C5: after either merge — a line patch or an order-level patch such as
explicit completion — the open Order Detail and any board-cache entry that
refer to the same order id hold the identical order record, aggregates
included (board-cache ids assumed distinct, as the board is a set of
orders). -/
theorem apply_merge_agreement (st : AppState) (d : PatchData) (o : Order)
    (hND : (st.orders.map (fun w => w.order.id)).Nodup) :
    detailBoardAgree (applyLinePatch st d) ∧ detailBoardAgree (applyOrderPatch st o) := by
  constructor
  · intro od' hod' w hw hid
    rw [show applyLinePatch st d = patchBoardStep (patchDetailStep st d) d from rfl] at hod' hw
    rw [patchBoardStep_orderDetail] at hod'
    rcases hodet : st.orderDetail with _ | od
    · unfold patchDetailStep at hod'
      rw [hodet] at hod'
      have h2 : st.orderDetail = some od' := hod'
      rw [hodet] at h2
      cases h2
    · unfold patchDetailStep at hod'
      rw [hodet] at hod'
      have h2 : some ({ order := d.order, lines := patchLines od.lines d } :
          OrderWithLines) = some od' := hod'
      have hodeq := Option.some.inj h2
      have hord : od'.order = d.order := by rw [← hodeq]
      rw [hord] at hid ⊢
      rcases hf : jsFindIndex (fun w2 => w2.order.id == d.order.id)
          (patchDetailStep st d).orders with _ | wi
      · rw [patchBoardStep_of_none _ _ hf, patchDetailStep_orders] at hw
        rw [patchDetailStep_orders] at hf
        exact absurd hid (board_no_match hf w hw)
      · rw [patchBoardStep_orders_of_some _ _ _ hf, patchDetailStep_orders] at hw
        rw [patchDetailStep_orders] at hf
        exact board_match_agree hND hf (fun w2 => rfl) w hw hid
  · intro od' hod' w hw hid
    rcases hodet : st.orderDetail with _ | od
    · unfold applyOrderPatch at hod'
      rw [hodet] at hod'
      have h2 : st.orderDetail = some od' := hod'
      rw [hodet] at h2
      cases h2
    · have hAO : applyOrderPatch st o =
          completeBoardStep { st with orderDetail := some { od with order := o } } o := by
        unfold applyOrderPatch
        rw [hodet]
      rw [hAO] at hod' hw
      rw [completeBoardStep_orderDetail] at hod'
      have h2 : some ({ od with order := o } : OrderWithLines) = some od' := hod'
      have hodeq := Option.some.inj h2
      have hord : od'.order = o := by rw [← hodeq]
      rw [hord] at hid ⊢
      rcases hf : jsFindIndex (fun w2 => w2.order.id == o.id)
          ({ st with orderDetail := some { od with order := o } } : AppState).orders
          with _ | wi
      · rw [completeBoardStep_of_none _ _ hf] at hw
        have hw' : w ∈ st.orders := hw
        have hf' : jsFindIndex (fun w2 => w2.order.id == o.id) st.orders = none := hf
        exact absurd hid (board_no_match hf' w hw')
      · rw [completeBoardStep_orders_of_some _ _ _ hf] at hw
        have hf' : jsFindIndex (fun w2 => w2.order.id == o.id) st.orders = some wi := hf
        have hw' : w ∈ modifyAt st.orders wi (fun w2 => { w2 with order := o }) := hw
        exact board_match_agree (f := fun w2 => { w2 with order := o })
          hND hf' (fun w2 => rfl) w hw' hid

/-- Witness for C5 at a concrete two-order state. -/
theorem apply_merge_agreement_witness :
    detailBoardAgree
        (applyLinePatch
          { config := none,
            orders :=
              [{ order := ⟨1, 10, 5, 50⟩,
                 lines := [⟨11, 5, 5, 1, none, false, false⟩] },
               { order := ⟨2, 3, 0, 0⟩,
                 lines := [⟨21, 1, 0, 1, none, false, false⟩] }],
            orderDetail := some
              { order := ⟨1, 10, 5, 50⟩,
                lines := [⟨11, 5, 5, 1, none, false, false⟩,
                          ⟨12, 2, 0, 2, none, false, false⟩] },
            activeOrderId := some 1, pollTimer := none, liveTimers := [],
            nextTimer := 0, view := View.detail }
          { order := ⟨1, 10, 6, 60⟩, line := ⟨11, 5, 4, 1, none, false, false⟩,
            order_completed_now := false }) ∧
      detailBoardAgree
        (applyOrderPatch
          { config := none,
            orders :=
              [{ order := ⟨1, 10, 5, 50⟩,
                 lines := [⟨11, 5, 5, 1, none, false, false⟩] },
               { order := ⟨2, 3, 0, 0⟩,
                 lines := [⟨21, 1, 0, 1, none, false, false⟩] }],
            orderDetail := some
              { order := ⟨1, 10, 5, 50⟩,
                lines := [⟨11, 5, 5, 1, none, false, false⟩,
                          ⟨12, 2, 0, 2, none, false, false⟩] },
            activeOrderId := some 1, pollTimer := none, liveTimers := [],
            nextTimer := 0, view := View.detail }
          ⟨1, 10, 10, 100⟩) :=
  apply_merge_agreement _ _ _ (by decide)

/-- Witness for C4 at a concrete two-order state: the unrelated board entry
and the unrelated detail line are untouched by the patch. -/
theorem patchLine_frame_witness :
    (applyLinePatch
        { config := none,
          orders :=
            [{ order := ⟨1, 10, 5, 50⟩,
               lines := [⟨11, 5, 5, 1, none, false, false⟩] },
             { order := ⟨2, 3, 0, 0⟩,
               lines := [⟨21, 1, 0, 1, none, false, false⟩] }],
          orderDetail := some
            { order := ⟨1, 10, 5, 50⟩,
              lines := [⟨11, 5, 5, 1, none, false, false⟩,
                        ⟨12, 2, 0, 2, none, false, false⟩] },
          activeOrderId := some 1, pollTimer := none, liveTimers := [],
          nextTimer := 0, view := View.detail }
        { order := ⟨1, 10, 6, 60⟩, line := ⟨11, 5, 4, 1, none, false, false⟩,
          order_completed_now := false }).orders.get? 1 =
      some { order := ⟨2, 3, 0, 0⟩, lines := [⟨21, 1, 0, 1, none, false, false⟩] } := by
  have h := (patchLine_frame
      { config := none,
        orders :=
          [{ order := ⟨1, 10, 5, 50⟩,
             lines := [⟨11, 5, 5, 1, none, false, false⟩] },
           { order := ⟨2, 3, 0, 0⟩,
             lines := [⟨21, 1, 0, 1, none, false, false⟩] }],
        orderDetail := some
          { order := ⟨1, 10, 5, 50⟩,
            lines := [⟨11, 5, 5, 1, none, false, false⟩,
                      ⟨12, 2, 0, 2, none, false, false⟩] },
        activeOrderId := some 1, pollTimer := none, liveTimers := [],
        nextTimer := 0, view := View.detail }
      { order := ⟨1, 10, 6, 60⟩, line := ⟨11, 5, 4, 1, none, false, false⟩,
        order_completed_now := false }).2.2.2.1 1 (by decide)
  exact h

end Shishki

namespace Shishki

theorem logoutS_fields (st : AppState) :
    (logoutS st).config = none ∧ (logoutS st).orders = [] ∧
    (logoutS st).orderDetail = none ∧ (logoutS st).activeOrderId = none ∧
    (logoutS st).pollTimer = none ∧ (logoutS st).view = View.login := by
  unfold logoutS stopPollingS
  rcases hp : st.pollTimer with _ | t <;> simp [hp]

/-- C7: a 401 response from any request through `apiFetch` clears the whole
session — config, board cache, order detail and active order id are
dropped, the poll handle is nulled and the login view shown — and only then
is the `Unauthorized` error thrown to the initiating action. -/
theorem apiFetch_unauthorized_teardown (st : AppState) (status : ℕ) (h : status = 401) :
    (apiFetchS st status).1.config = none ∧
    (apiFetchS st status).1.orders = [] ∧
    (apiFetchS st status).1.orderDetail = none ∧
    (apiFetchS st status).1.activeOrderId = none ∧
    (apiFetchS st status).1.pollTimer = none ∧
    (apiFetchS st status).1.view = View.login ∧
    (apiFetchS st status).2 = Except.error () := by
  subst h
  unfold apiFetchS
  rw [if_pos rfl]
  obtain ⟨h1, h2, h3, h4, h5, h6⟩ := logoutS_fields st
  exact ⟨h1, h2, h3, h4, h5, h6, rfl⟩

/-- Witness for C7 at a fully populated session hit by a 401. -/
theorem apiFetch_unauthorized_teardown_witness :
    (apiFetchS
        { config := some 5,
          orders := [{ order := ⟨1, 10, 5, 50⟩, lines := [] }],
          orderDetail := some { order := ⟨1, 10, 5, 50⟩, lines := [] },
          activeOrderId := some 1, pollTimer := some 3, liveTimers := [3],
          nextTimer := 4, view := View.detail } 401).1.config = none ∧
    (apiFetchS
        { config := some 5,
          orders := [{ order := ⟨1, 10, 5, 50⟩, lines := [] }],
          orderDetail := some { order := ⟨1, 10, 5, 50⟩, lines := [] },
          activeOrderId := some 1, pollTimer := some 3, liveTimers := [3],
          nextTimer := 4, view := View.detail } 401).1.orders = [] ∧
    (apiFetchS
        { config := some 5,
          orders := [{ order := ⟨1, 10, 5, 50⟩, lines := [] }],
          orderDetail := some { order := ⟨1, 10, 5, 50⟩, lines := [] },
          activeOrderId := some 1, pollTimer := some 3, liveTimers := [3],
          nextTimer := 4, view := View.detail } 401).1.orderDetail = none ∧
    (apiFetchS
        { config := some 5,
          orders := [{ order := ⟨1, 10, 5, 50⟩, lines := [] }],
          orderDetail := some { order := ⟨1, 10, 5, 50⟩, lines := [] },
          activeOrderId := some 1, pollTimer := some 3, liveTimers := [3],
          nextTimer := 4, view := View.detail } 401).1.activeOrderId = none ∧
    (apiFetchS
        { config := some 5,
          orders := [{ order := ⟨1, 10, 5, 50⟩, lines := [] }],
          orderDetail := some { order := ⟨1, 10, 5, 50⟩, lines := [] },
          activeOrderId := some 1, pollTimer := some 3, liveTimers := [3],
          nextTimer := 4, view := View.detail } 401).1.pollTimer = none ∧
    (apiFetchS
        { config := some 5,
          orders := [{ order := ⟨1, 10, 5, 50⟩, lines := [] }],
          orderDetail := some { order := ⟨1, 10, 5, 50⟩, lines := [] },
          activeOrderId := some 1, pollTimer := some 3, liveTimers := [3],
          nextTimer := 4, view := View.detail } 401).1.view = View.login ∧
    (apiFetchS
        { config := some 5,
          orders := [{ order := ⟨1, 10, 5, 50⟩, lines := [] }],
          orderDetail := some { order := ⟨1, 10, 5, 50⟩, lines := [] },
          activeOrderId := some 1, pollTimer := some 3, liveTimers := [3],
          nextTimer := 4, view := View.detail } 401).2 = Except.error () :=
  apiFetch_unauthorized_teardown
    { config := some 5,
      orders := [{ order := ⟨1, 10, 5, 50⟩, lines := [] }],
      orderDetail := some { order := ⟨1, 10, 5, 50⟩, lines := [] },
      activeOrderId := some 1, pollTimer := some 3, liveTimers := [3],
      nextTimer := 4, view := View.detail } 401 rfl

theorem stopPollingS_clears {st : AppState} (h : timersInv st) :
    (stopPollingS st).pollTimer = none ∧ (stopPollingS st).liveTimers = [] := by
  unfold timersInv at h
  unfold stopPollingS
  rcases hp : st.pollTimer with _ | t
  · rw [hp] at h
    refine ⟨hp, ?_⟩
    simpa using h
  · rw [hp] at h
    refine ⟨rfl, ?_⟩
    show st.liveTimers.erase t = []
    rw [show st.liveTimers = [t] from by simpa using h]
    simp

theorem startPollingS_one {st : AppState} (h : timersInv st) :
    ∃ t, (startPollingS st).pollTimer = some t ∧ (startPollingS st).liveTimers = [t] := by
  obtain ⟨hp, hl⟩ := stopPollingS_clears h
  refine ⟨(stopPollingS st).nextTimer, rfl, ?_⟩
  show (stopPollingS st).liveTimers ++ [(stopPollingS st).nextTimer]
      = [(stopPollingS st).nextTimer]
  rw [hl]
  rfl

theorem timersInv_of_fields (s : AppState) {u : AppState} (hp : u.pollTimer = s.pollTimer)
    (hl : u.liveTimers = s.liveTimers) (h : timersInv s) : timersInv u := by
  unfold timersInv at *
  rw [hp, hl]
  exact h

theorem timersInv_stop (s : AppState) (h : timersInv s) : timersInv (stopPollingS s) := by
  obtain ⟨hp, hl⟩ := stopPollingS_clears h
  unfold timersInv
  rw [hp, hl]

theorem timersInv_start (s : AppState) (h : timersInv s) :
    timersInv (startPollingS s) := by
  obtain ⟨t, hp, hl⟩ := startPollingS_one h
  unfold timersInv
  rw [hp, hl]

theorem patchDetailStep_timers (st : AppState) (d : PatchData) :
    (patchDetailStep st d).pollTimer = st.pollTimer ∧
      (patchDetailStep st d).liveTimers = st.liveTimers := by
  unfold patchDetailStep
  rcases hod : st.orderDetail with _ | od <;> exact ⟨rfl, rfl⟩

theorem patchBoardStep_timers (st : AppState) (d : PatchData) :
    (patchBoardStep st d).pollTimer = st.pollTimer ∧
      (patchBoardStep st d).liveTimers = st.liveTimers := by
  unfold patchBoardStep
  rcases hf : jsFindIndex (fun w => w.order.id == d.order.id) st.orders with _ | wi <;>
    rw [hf] <;> exact ⟨rfl, rfl⟩

theorem completeBoardStep_timers (st : AppState) (o : Order) :
    (completeBoardStep st o).pollTimer = st.pollTimer ∧
      (completeBoardStep st o).liveTimers = st.liveTimers := by
  unfold completeBoardStep
  rcases hf : jsFindIndex (fun w => w.order.id == o.id) st.orders with _ | wi <;>
    rw [hf] <;> exact ⟨rfl, rfl⟩

theorem applyLinePatch_timers (st : AppState) (d : PatchData) :
    (applyLinePatch st d).pollTimer = st.pollTimer ∧
      (applyLinePatch st d).liveTimers = st.liveTimers := by
  have h1 := patchBoardStep_timers (patchDetailStep st d) d
  have h2 := patchDetailStep_timers st d
  exact ⟨h1.1.trans h2.1, h1.2.trans h2.2⟩

theorem applyOrderPatch_timers (st : AppState) (o : Order) :
    (applyOrderPatch st o).pollTimer = st.pollTimer ∧
      (applyOrderPatch st o).liveTimers = st.liveTimers := by
  unfold applyOrderPatch
  rcases hod : st.orderDetail with _ | od
  · exact ⟨rfl, rfl⟩
  · have h := completeBoardStep_timers
      ({ st with orderDetail := some { od with order := o } } : AppState) o
    exact ⟨h.1, h.2⟩

theorem timersInv_step {st : AppState} (h : timersInv st) (e : Ev) :
    timersInv (stepE st e) := by
  cases e with
  | boot cfg fetched =>
    exact timersInv_start _ (timersInv_of_fields st rfl rfl h)
  | openOrd oid detail =>
    exact timersInv_of_fields (stopPollingS st) rfl rfl (timersInv_stop st h)
  | closeOrd =>
    exact timersInv_start _ (timersInv_of_fields st rfl rfl h)
  | pollTick fetched =>
    show timersInv (pollTickS st fetched)
    unfold pollTickS
    split_ifs with ht
    · exact h
    · exact timersInv_of_fields st rfl rfl h
  | refresh fetched => exact timersInv_of_fields st rfl rfl h
  | linePatch d =>
    obtain ⟨hp, hl⟩ := applyLinePatch_timers st d
    exact timersInv_of_fields st hp hl h
  | orderPatch o =>
    obtain ⟨hp, hl⟩ := applyOrderPatch_timers st o
    exact timersInv_of_fields st hp hl h
  | unauthorized =>
    show timersInv (logoutS st)
    simp only [logoutS]
    refine timersInv_of_fields
      (stopPollingS
        ({ st with
            config := none, orders := [], orderDetail := none,
            activeOrderId := none } : AppState)) rfl rfl ?_
    exact timersInv_stop _ (timersInv_of_fields st rfl rfl h)
  | logoutClick =>
    show timersInv (logoutS st)
    simp only [logoutS]
    refine timersInv_of_fields
      (stopPollingS
        ({ st with
            config := none, orders := [], orderDetail := none,
            activeOrderId := none } : AppState)) rfl rfl ?_
    exact timersInv_stop _ (timersInv_of_fields st rfl rfl h)

theorem timersInv_reachable {st : AppState} (h : ReachableS st) : timersInv st := by
  induction h with
  | init => rfl
  | next _ e ih => exact timersInv_step ih e

end Shishki

namespace Shishki

/-- C8: in every reachable controller state at most one poll interval is
live; opening an order (entering Detail mode) leaves no live interval, and
closing the order view leaves exactly one — so open/close cycles never
accumulate timers. -/
theorem poll_timer_unique (st : AppState) (h : ReachableS st) :
    st.liveTimers.length ≤ 1 ∧
    (∀ oid detail, (stepE st (Ev.openOrd oid detail)).liveTimers = []) ∧
    (stepE st Ev.closeOrd).liveTimers.length = 1 := by
  have hinv := timersInv_reachable h
  refine ⟨?_, ?_, ?_⟩
  · unfold timersInv at hinv
    rw [hinv]
    rcases st.pollTimer with _ | t <;> simp
  · intro oid detail
    exact (stopPollingS_clears hinv).2
  · have h' : timersInv
        ({ st with
            activeOrderId := none, orderDetail := none,
            view := View.board } : AppState) :=
      timersInv_of_fields st rfl rfl hinv
    obtain ⟨t, hp, hl⟩ := startPollingS_one h'
    show (startPollingS
        ({ st with
            activeOrderId := none, orderDetail := none,
            view := View.board } : AppState)).liveTimers.length = 1
    rw [hl]
    rfl

/-- Witness for C8 at the initial (logged-out) state. -/
theorem poll_timer_unique_witness :
    initState.liveTimers.length ≤ 1 ∧
    (∀ oid detail, (stepE initState (Ev.openOrd oid detail)).liveTimers = []) ∧
    (stepE initState Ev.closeOrd).liveTimers.length = 1 :=
  poll_timer_unique initState ReachableS.init

end Shishki

namespace Shishki

/-- C10 counterexample: the tick guard is JS truthiness (`!state.activeOrderId`),
not a null check.  With an order whose id is `0` open (`activeOrderId = some 0`,
non-null), a poll tick still reloads the board cache and so does change state. -/
theorem pollTick_guard_cex :
    (({ config := none, orders := [], orderDetail := none, activeOrderId := some 0,
        pollTimer := some 0, liveTimers := [0], nextTimer := 1,
        view := View.detail } : AppState).activeOrderId ≠ none) ∧
      pollTickS
          { config := none, orders := [], orderDetail := none, activeOrderId := some 0,
            pollTimer := some 0, liveTimers := [0], nextTimer := 1,
            view := View.detail }
          [{ order := ⟨1, 0, 0, 0⟩, lines := [] }] ≠
        { config := none, orders := [], orderDetail := none, activeOrderId := some 0,
          pollTimer := some 0, liveTimers := [0], nextTimer := 1,
          view := View.detail } := by
  refine ⟨by simp, fun h => ?_⟩
  have h2 := congrArg AppState.orders h
  simp [pollTickS, jsTruthyId] at h2

/-- C10 (amended): while an order with a truthy id is open (`activeOrderId`
is `some n` with `n ≠ 0`; JS `!state.activeOrderId`), a poll tick performs
no board reload and leaves the whole state unchanged — a board reload with
such an order open never originates from the poll timer.  (The original
wording "non-null" misses the id-`0` truthiness edge case above.) -/
theorem pollTick_truthy_guard (st : AppState) (fetched : List OrderWithLines) (n : ℕ)
    (h : st.activeOrderId = some n) (hn : n ≠ 0) :
    pollTickS st fetched = st := by
  have ht : jsTruthyId st.activeOrderId = true := by
    rw [h]
    simp [jsTruthyId, hn]
  unfold pollTickS
  rw [ht]
  rfl

/-- Witness for C10's amended theorem at a concrete open order with id 7. -/
theorem pollTick_truthy_guard_witness :
    pollTickS
        { config := none, orders := [], orderDetail := none, activeOrderId := some 7,
          pollTimer := none, liveTimers := [], nextTimer := 0, view := View.detail }
        [{ order := ⟨1, 0, 0, 0⟩, lines := [] }] =
      { config := none, orders := [], orderDetail := none, activeOrderId := some 7,
        pollTimer := none, liveTimers := [], nextTimer := 0, view := View.detail } :=
  pollTick_truthy_guard
    { config := none, orders := [], orderDetail := none, activeOrderId := some 7,
      pollTimer := none, liveTimers := [], nextTimer := 0, view := View.detail }
    [{ order := ⟨1, 0, 0, 0⟩, lines := [] }] 7 rfl (by decide)

end Shishki

namespace Shishki

theorem jsFindIndex_eq_none_of {α : Type} {p : α → Bool} :
    ∀ {l : List α}, (∀ a ∈ l, p a = false) → jsFindIndex p l = none := by
  intro l
  induction l with
  | nil => intro _; rfl
  | cons x xs ih =>
    intro h
    unfold jsFindIndex
    rw [if_neg (by simp [h x (List.mem_cons_self x xs)]), ih (fun a ha => h a (List.mem_cons_of_mem x ha))]
    rfl

theorem jsFindIndex_cons {α : Type} (p : α → Bool) (a : α) (l : List α) :
    jsFindIndex p (a :: l) = if p a then some 0 else (jsFindIndex p l).map (· + 1) := rfl

theorem insertAt_zero {α : Type} (l : List α) (x : α) : insertAt l 0 x = x :: l := rfl

theorem insertAt_succ_cons {α : Type} (a : α) (l : List α) (i : ℕ) (x : α) :
    insertAt (a :: l) (i + 1) x = a :: insertAt l i x := rfl

/-- Detached-element insertion when no incomplete elements remain: the
element lands right at the head of the complete/removed tail. -/
theorem insertByGroupPos_front (comp rem : List El) (el : El)
    (hC : ∀ x ∈ comp, x.group = Group.complete)
    (hR : ∀ x ∈ rem, x.group = Group.removed) :
    insertByGroupPos (comp ++ rem) el = el :: (comp ++ rem) := by
  have h1 : jsFindIndex (fun x => decide (x.group = Group.incomplete) &&
      decide (el.sortIndex < x.sortIndex)) (comp ++ rem) = none := by
    refine jsFindIndex_eq_none_of ?_
    intro a ha
    rcases List.mem_append.1 ha with h | h
    · simp [hC a h]
    · simp [hR a h]
  cases comp with
  | cons c comp' =>
    have h2 : jsFindIndex (fun x => decide (x.group = Group.complete))
        ((c :: comp') ++ rem) = some 0 := by
      rw [List.cons_append, jsFindIndex_cons,
        if_pos (by simp [hC c (List.mem_cons_self c comp')])]
    simp only [insertByGroupPos, h1, h2, insertAt_zero]
  | nil =>
    have h2 : jsFindIndex (fun x => decide (x.group = Group.complete))
        (([] : List El) ++ rem) = none := by
      refine jsFindIndex_eq_none_of ?_
      intro a ha
      rw [List.nil_append] at ha
      simp [hR a ha]
    cases rem with
    | cons r rem' =>
      have h3 : jsFindIndex (fun x => decide (x.group = Group.removed))
          (([] : List El) ++ r :: rem') = some 0 := by
        rw [List.nil_append, jsFindIndex_cons,
          if_pos (by simp [hR r (List.mem_cons_self r rem')])]
      simp only [insertByGroupPos, h1, h2, h3, insertAt_zero]
    | nil =>
      have h3 : jsFindIndex (fun x => decide (x.group = Group.removed))
          (([] : List El) ++ ([] : List El)) = none := jsFindIndex_eq_none_of (by simp)
      simp only [insertByGroupPos, h1, h2, h3]
      rfl

/-- Insertion walks past an incomplete element whose sort index does not
exceed the moved element's. -/
theorem insertByGroupPos_cons_skip (a : El) (rest : List El) (el : El)
    (ha : a.group = Group.incomplete) (hle : a.sortIndex ≤ el.sortIndex) :
    insertByGroupPos (a :: rest) el = a :: insertByGroupPos rest el := by
  have e1 : jsFindIndex (fun x => decide (x.group = Group.incomplete) &&
      decide (el.sortIndex < x.sortIndex)) (a :: rest) =
      (jsFindIndex (fun x => decide (x.group = Group.incomplete) &&
        decide (el.sortIndex < x.sortIndex)) rest).map (· + 1) := by
    rw [jsFindIndex_cons, if_neg (by simp [ha, not_lt.mpr hle])]
  have e2 : jsFindIndex (fun x => decide (x.group = Group.complete)) (a :: rest) =
      (jsFindIndex (fun x => decide (x.group = Group.complete)) rest).map (· + 1) := by
    rw [jsFindIndex_cons, if_neg (by simp [ha])]
  have e3 : jsFindIndex (fun x => decide (x.group = Group.removed)) (a :: rest) =
      (jsFindIndex (fun x => decide (x.group = Group.removed)) rest).map (· + 1) := by
    rw [jsFindIndex_cons, if_neg (by simp [ha])]
  rcases h1 : jsFindIndex (fun x => decide (x.group = Group.incomplete) &&
      decide (el.sortIndex < x.sortIndex)) rest with _ | i
  · rcases h2 : jsFindIndex (fun x => decide (x.group = Group.complete)) rest with _ | i
    · rcases h3 : jsFindIndex (fun x => decide (x.group = Group.removed)) rest with _ | i
      · simp only [insertByGroupPos, e1, e2, e3, h1, h2, h3, Option.map_none']
        rfl
      · simp only [insertByGroupPos, e1, e2, e3, h1, h2, h3, Option.map_none',
          Option.map_some', insertAt_succ_cons]
    · simp only [insertByGroupPos, e1, e2, h1, h2, Option.map_none', Option.map_some',
        insertAt_succ_cons]
  · simp only [insertByGroupPos, e1, h1, Option.map_some', insertAt_succ_cons]

/-- Insertion stops in front of the first incomplete element with a
strictly larger sort index. -/
theorem insertByGroupPos_cons_hit (a : El) (rest : List El) (el : El)
    (ha : a.group = Group.incomplete) (hlt : el.sortIndex < a.sortIndex) :
    insertByGroupPos (a :: rest) el = el :: a :: rest := by
  have e1 : jsFindIndex (fun x => decide (x.group = Group.incomplete) &&
      decide (el.sortIndex < x.sortIndex)) (a :: rest) = some 0 := by
    rw [jsFindIndex_cons, if_pos (by simp [ha, hlt])]
  simp only [insertByGroupPos, e1, insertAt_zero]

/-- Inserting a detached element into `incomplete ++ complete ++ removed`
splits the sorted incomplete prefix at the element's sort index. -/
theorem insertByGroupPos_sorted (inc comp rem : List El) (el : El)
    (hI : ∀ x ∈ inc, x.group = Group.incomplete)
    (hC : ∀ x ∈ comp, x.group = Group.complete)
    (hR : ∀ x ∈ rem, x.group = Group.removed)
    (hS : inc.Pairwise (fun a b => a.sortIndex ≤ b.sortIndex)) :
    ∃ p q, p ++ q = inc ∧
      (∀ x ∈ p, x.sortIndex ≤ el.sortIndex) ∧
      (∀ x ∈ q, el.sortIndex < x.sortIndex) ∧
      insertByGroupPos (inc ++ comp ++ rem) el = p ++ el :: (q ++ comp ++ rem) := by
  induction inc with
  | nil =>
    refine ⟨[], [], rfl, by simp, by simp, ?_⟩
    simp only [List.nil_append, List.append_assoc]
    exact insertByGroupPos_front comp rem el hC hR
  | cons a inc' ih =>
    rw [List.pairwise_cons] at hS
    rcases lt_or_le el.sortIndex a.sortIndex with hlt | hle
    · refine ⟨[], a :: inc', rfl, by simp, ?_, ?_⟩
      · intro x hx
        rcases List.mem_cons.1 hx with rfl | hx'
        · exact hlt
        · exact lt_of_lt_of_le hlt (hS.1 x hx')
      · simp only [List.cons_append, List.nil_append, List.append_assoc]
        exact insertByGroupPos_cons_hit a (inc' ++ (comp ++ rem)) el
          (hI a (List.mem_cons_self a inc')) hlt
    · obtain ⟨p, q, hpq, hp, hq, heq⟩ := ih
        (fun x hx => hI x (List.mem_cons_of_mem a hx)) hS.2
      refine ⟨a :: p, q, by rw [List.cons_append, hpq], ?_, hq, ?_⟩
      · intro x hx
        rcases List.mem_cons.1 hx with rfl | hx'
        · exact hle
        · exact hp x hx'
      · simp only [List.cons_append, List.append_assoc] at heq ⊢
        rw [insertByGroupPos_cons_skip a (inc' ++ (comp ++ rem)) el
          (hI a (List.mem_cons_self a inc')) hle, heq]

theorem map_replace_skip (l : List El) (n : ℕ) (el' : El)
    (h : ∀ x ∈ l, x.id ≠ n) :
    l.map (fun x => if x.id == n then el' else x) = l := by
  induction l with
  | nil => rfl
  | cons a t ih =>
    rw [List.map_cons, if_neg (by simp [h a (List.mem_cons_self a t)]),
      ih (fun x hx => h x (List.mem_cons_of_mem a hx))]

theorem filter_keep (l : List El) (n : ℕ) (h : ∀ x ∈ l, x.id ≠ n) :
    l.filter (fun x => x.id != n) = l := by
  induction l with
  | nil => rfl
  | cons a t ih =>
    rw [List.filter_cons_of_pos (by simp [h a (List.mem_cons_self a t)]),
      ih (fun x hx => h x (List.mem_cons_of_mem a hx))]

theorem find?_skip {α : Type} (p : α → Bool) :
    ∀ (l1 l2 : List α), (∀ x ∈ l1, p x = false) →
      (l1 ++ l2).find? p = l2.find? p := by
  intro l1
  induction l1 with
  | nil => intro l2 _; rfl
  | cons a t ih =>
    intro l2 h
    rw [List.cons_append,
      List.find?_cons_of_neg _ (by simp [h a (List.mem_cons_self a t)]),
      ih l2 (fun x hx => h x (List.mem_cons_of_mem a hx))]

end Shishki

namespace Shishki

/-- C9: in a rendered detail list `incomplete ++ complete ++ removed` whose
incomplete group is sorted by `sort_index`, updating a previously done line
(`el`, sitting anywhere in the complete group) with data that is no longer
done and not removed reinserts its element into the incomplete group at the
position preserving ascending `sort_index` order — after every incomplete
element with a smaller-or-equal index and before every one with a larger
index — not at the group's end. -/
theorem updateLineUI_reinsert_sorted
    (inc comp1 comp2 rem : List El) (el : El) (line : Line)
    (hid : el.id = line.id)
    (hOinc : ∀ x ∈ inc, x.id ≠ line.id)
    (hOc1 : ∀ x ∈ comp1, x.id ≠ line.id)
    (hOc2 : ∀ x ∈ comp2, x.id ≠ line.id)
    (hOrem : ∀ x ∈ rem, x.id ≠ line.id)
    (hI : ∀ x ∈ inc, x.group = Group.incomplete)
    (hC1 : ∀ x ∈ comp1, x.group = Group.complete)
    (hC2 : ∀ x ∈ comp2, x.group = Group.complete)
    (hR : ∀ x ∈ rem, x.group = Group.removed)
    (hS : inc.Pairwise (fun a b => a.sortIndex ≤ b.sortIndex))
    (hwasDone : el.done = true)
    (hnow : isLineDone line = false)
    (hnrem : line.is_removed = false) :
    ∃ p q, p ++ q = inc ∧
      (∀ x ∈ p, x.sortIndex ≤ line.sort_index) ∧
      (∀ x ∈ q, line.sort_index < x.sortIndex) ∧
      updateLineUI (inc ++ comp1 ++ el :: comp2 ++ rem) line =
        p ++ ({ id := el.id, sortIndex := line.sort_index, done := false,
                group := Group.incomplete } : El) :: (q ++ (comp1 ++ comp2) ++ rem) := by
  set el' : El :=
    { id := el.id, sortIndex := line.sort_index, done := false,
      group := Group.incomplete } with hel'
  have hpid : (el.id == line.id) = true := by simp [hid]
  have hfind : (inc ++ comp1 ++ el :: comp2 ++ rem).find? (fun x => x.id == line.id)
      = some el := by
    simp only [List.append_assoc, List.cons_append]
    rw [find?_skip _ inc _ (fun x hx => by simp [hOinc x hx]),
      find?_skip _ comp1 _ (fun x hx => by simp [hOc1 x hx]),
      List.find?_cons_of_pos (p := fun x : El => x.id == line.id) (a := el) _
        (by simpa using hpid)]
  have hmap : (inc ++ comp1 ++ el :: comp2 ++ rem).map
      (fun x => if x.id == line.id then el' else x)
      = inc ++ comp1 ++ el' :: comp2 ++ rem := by
    simp only [List.map_append, List.map_cons]
    rw [map_replace_skip inc line.id _ hOinc, map_replace_skip comp1 line.id _ hOc1,
      map_replace_skip comp2 line.id _ hOc2, map_replace_skip rem line.id _ hOrem,
      if_pos hpid]
  have hfilter : (inc ++ comp1 ++ el' :: comp2 ++ rem).filter
      (fun x => x.id != el'.id) = inc ++ ((comp1 ++ comp2) ++ rem) := by
    simp only [List.filter_append, List.filter_cons]
    rw [if_neg (by simp)]
    rw [filter_keep inc el'.id (fun x hx => hid ▸ hOinc x hx),
      filter_keep comp1 el'.id (fun x hx => hid ▸ hOc1 x hx),
      filter_keep comp2 el'.id (fun x hx => hid ▸ hOc2 x hx),
      filter_keep rem el'.id (fun x hx => hid ▸ hOrem x hx)]
    simp [List.append_assoc]
  have hstep : updateLineUI (inc ++ comp1 ++ el :: comp2 ++ rem) line =
      moveLineToIncompletePosition (inc ++ comp1 ++ el' :: comp2 ++ rem) el' := by
    unfold updateLineUI
    rw [hfind]
    simp only [hwasDone, hnow, hnrem, Bool.not_true, Bool.not_false, Bool.false_and,
      Bool.true_and, Bool.false_eq_true, if_false, if_true, hel', hmap]
  have hmove : moveLineToIncompletePosition (inc ++ comp1 ++ el' :: comp2 ++ rem) el'
      = insertByGroupPos (inc ++ ((comp1 ++ comp2) ++ rem)) el' := by
    unfold moveLineToIncompletePosition
    rw [hfilter]
  obtain ⟨p, q, hpq, hp, hq, heq⟩ := insertByGroupPos_sorted inc (comp1 ++ comp2) rem el'
    hI
    (by
      intro x hx
      rcases List.mem_append.1 hx with h | h
      · exact hC1 x h
      · exact hC2 x h)
    hR hS
  refine ⟨p, q, hpq, hp, hq, ?_⟩
  rw [hstep, hmove]
  rw [show inc ++ ((comp1 ++ comp2) ++ rem) = inc ++ (comp1 ++ comp2) ++ rem from by
    simp [List.append_assoc]]
  rw [heq]

/-- Witness for C9: a three-line list `[s=1 incomplete, s=3 incomplete,
s=2 complete]`; decrementing the done line (sort index 2) reinserts it
between the two incomplete lines, not at the group's end. -/
theorem updateLineUI_reinsert_sorted_witness :
    ∃ p q, p ++ q =
        [({ id := 1, sortIndex := 1, done := false, group := Group.incomplete } : El),
         { id := 3, sortIndex := 3, done := false, group := Group.incomplete }] ∧
      (∀ x ∈ p, x.sortIndex ≤ (2 : ℚ)) ∧
      (∀ x ∈ q, (2 : ℚ) < x.sortIndex) ∧
      updateLineUI
          [{ id := 1, sortIndex := 1, done := false, group := Group.incomplete },
           { id := 3, sortIndex := 3, done := false, group := Group.incomplete },
           { id := 2, sortIndex := 2, done := true, group := Group.complete }]
          ⟨2, 5, 1, 2, none, false, false⟩ =
        p ++ ({ id := 2, sortIndex := 2, done := false,
                 group := Group.incomplete } : El) :: (q ++ ([] ++ []) ++ []) := by
  have h := updateLineUI_reinsert_sorted
    [{ id := 1, sortIndex := 1, done := false, group := Group.incomplete },
     { id := 3, sortIndex := 3, done := false, group := Group.incomplete }]
    [] [] []
    { id := 2, sortIndex := 2, done := true, group := Group.complete }
    ⟨2, 5, 1, 2, none, false, false⟩
    rfl
    (by intro x hx; fin_cases hx <;> decide)
    (by intro x hx; simp at hx)
    (by intro x hx; simp at hx)
    (by intro x hx; simp at hx)
    (by intro x hx; fin_cases hx <;> decide)
    (by intro x hx; simp at hx)
    (by intro x hx; simp at hx)
    (by intro x hx; simp at hx)
    (by
      refine List.Pairwise.cons ?_ (List.pairwise_singleton _ _)
      intro b hb
      rw [List.mem_singleton] at hb
      rw [hb]
      norm_num)
    rfl
    (by norm_num [isLineDone, EPS, TOL])
    rfl
  simpa using h

end Shishki
